import Mathlib

/-!
Verification development for the OpenFst sparse power weight
(src/include/fst/sparse-power-weight.h) and the fstreweight command
(src/bin/fstreweight.cc).

The base weight type `W` is the external Weight Interface of the spec: an
abstract semiring value type with `Zero`, `One`, `Plus`, `Times`, `Divide`
(with a policy), approximate equality and property flags.  It is embedded as
a record of operations over an arbitrary carrier type.
-/

namespace OpenFst

/-- Divide policy, from the DivideType enumeration (DIVIDE_LEFT, DIVIDE_RIGHT,
DIVIDE_ANY) of the weight interface. -/
inductive DivideType where
  | left
  | right
  | any
deriving DecidableEq

/-- The external Weight Interface consumed by the sparse power weight: `Zero`,
`One`, `Plus`, `Times`, `Divide` with a policy, approximate equality with a
tolerance, the uint64 property flags, and the registered type name.  Deltas
are embedded as rationals. -/
structure WeightOps (W : Type) where
  zero : W
  one : W
  plus : W → W → W
  times : W → W → W
  divide : W → W → DivideType → W
  approxEqual : W → W → ℚ → Bool
  props : Nat
  typeName : String

/-- The default comparison tolerance kDelta = 1.0F/1024.0F from fst/weight.h,
embedded as a rational. -/
def kDelta : ℚ := 1 / 1024

/-- The reserved key kNoKey (-1): never a real dimension index. -/
def kNoKey : Int := -1

/-- Modelled from the spec: the SparseTupleWeight representation of
fst/sparse-tuple-weight.h is not under src/.  Per the spec data model it is an
ordered sequence of (key, value) pairs in which absent keys read as
`W::Zero()`; the reserved sentinel key holds the tuple's default value, which
distinguishes `One()` (sentinel pair `W::One()`, no real entries) from
`Zero()` (the empty tuple).  `dflt` is the value of the reserved sentinel key
and `pairs` are the materialized real entries, kept in strictly increasing key
order. -/
structure SparseTupleWeight (W : Type) where
  dflt : W
  pairs : List (Int × W)
deriving DecidableEq

/-- Modelled from the spec: `Zero()` is the empty tuple (no entries, absent
keys read as `W::Zero()`). -/
def Zero (ops : WeightOps W) : SparseTupleWeight W :=
  ⟨ops.zero, []⟩

/-- Modelled from the spec: `One()` is the single pair mapping the reserved
key to `W::One()`, with no real entries. -/
def One (ops : WeightOps W) : SparseTupleWeight W :=
  ⟨ops.one, []⟩

/-- Modelled from the spec: the single-value SparseTupleWeight constructor,
which wraps a bare weight as a tuple whose only entry is the reserved
sentinel key. -/
def ofScalar (_ops : WeightOps W) (k : W) : SparseTupleWeight W :=
  ⟨k, []⟩

/-- Value read at key `k` in an ordered pair list, `d` when absent. -/
def lookupL (k : Int) (d : W) : List (Int × W) → W
  | [] => d
  | (k1, v1) :: t => if k1 = k then v1 else lookupL k d t

/-- Keys in strictly increasing order (the representation invariant of the
ordered sparse pair list). -/
def KeysSorted (l : List (Int × W)) : Prop :=
  l.Pairwise fun p q => p.1 < q.1

instance (l : List (Int × W)) : Decidable (KeysSorted l) := by
  unfold KeysSorted; infer_instance

/-- The spec data model invariant for a tuple: entries in strictly increasing
key order and absent keys (the default) reading as `W::Zero()`. -/
def Wf (ops : WeightOps W) (t : SparseTupleWeight W) : Prop :=
  KeysSorted t.pairs ∧ t.dflt = ops.zero

/-- Modelled from the spec: the pair-list part of the generic merge of
`SparseTupleWeightMap` (fst/sparse-tuple-weight.h, not under src/).  Keys are
traversed in the union of both operands' key orders, each key visited exactly
once; a key present on only one side reads the other side's default; a mapped
value equal to the result's default `rd` (the spec's `W::Zero()` in the
default-Zero case) is omitted to preserve sparsity. -/
def mapPairs [DecidableEq W] (M : Int → W → W → W) (d1 d2 rd : W) :
    List (Int × W) → List (Int × W) → List (Int × W)
  | [], [] => []
  | [], (k2, v2) :: t2 =>
    let v := M k2 d1 v2
    if v = rd then mapPairs M d1 d2 rd [] t2
    else (k2, v) :: mapPairs M d1 d2 rd [] t2
  | (k1, v1) :: t1, [] =>
    let v := M k1 v1 d2
    if v = rd then mapPairs M d1 d2 rd t1 []
    else (k1, v) :: mapPairs M d1 d2 rd t1 []
  | (k1, v1) :: t1, (k2, v2) :: t2 =>
    if k1 = k2 then
      let v := M k1 v1 v2
      if v = rd then mapPairs M d1 d2 rd t1 t2
      else (k1, v) :: mapPairs M d1 d2 rd t1 t2
    else if k1 < k2 then
      let v := M k1 v1 d2
      if v = rd then mapPairs M d1 d2 rd t1 ((k2, v2) :: t2)
      else (k1, v) :: mapPairs M d1 d2 rd t1 ((k2, v2) :: t2)
    else
      let v := M k2 d1 v2
      if v = rd then mapPairs M d1 d2 rd ((k1, v1) :: t1) t2
      else (k2, v) :: mapPairs M d1 d2 rd ((k1, v1) :: t1) t2
termination_by l1 l2 => l1.length + l2.length

/-- Modelled from the spec: the generic merge `SparseTupleWeightMap`
(fst/sparse-tuple-weight.h, not under src/).  The result's default is the
mapper applied to the two defaults (the synthesized reserved-sentinel-key
entry), and the entries are the merged pair lists. -/
def SparseTupleWeightMap [DecidableEq W] (M : Int → W → W → W)
    (w1 w2 : SparseTupleWeight W) : SparseTupleWeight W :=
  let rd := M kNoKey w1.dflt w2.dflt
  ⟨rd, mapPairs M w1.dflt w2.dflt rd w1.pairs w2.pairs⟩

/-- The Plus mapper SparseTupleWeightPlusMapper. -/
def SparseTupleWeightPlusMapper (ops : WeightOps W) (_k : Int) (v1 v2 : W) : W :=
  ops.plus v1 v2

/-- The Times mapper SparseTupleWeightTimesMapper. -/
def SparseTupleWeightTimesMapper (ops : WeightOps W) (_k : Int) (v1 v2 : W) : W :=
  ops.times v1 v2

/-- The Divide mapper SparseTupleWeightDivideMapper, fixing the divide
policy. -/
def SparseTupleWeightDivideMapper (ops : WeightOps W) (type : DivideType)
    (_k : Int) (v1 v2 : W) : W :=
  ops.divide v1 v2 type

/-- The approximate-equality mapper SparseTupleWeightApproxMapper: maps a
coordinate to `One` when the two values are approximately equal within
`delta`, else `Zero`. -/
def SparseTupleWeightApproxMapper (ops : WeightOps W) (delta : ℚ)
    (_k : Int) (v1 v2 : W) : W :=
  if ops.approxEqual v1 v2 delta then ops.one else ops.zero

/-- Semimodule plus operation of sparse-power-weight.h. -/
def Plus [DecidableEq W] (ops : WeightOps W) (w1 w2 : SparseTupleWeight W) :
    SparseTupleWeight W :=
  SparseTupleWeightMap (SparseTupleWeightPlusMapper ops) w1 w2

/-- Semimodule times operation of sparse-power-weight.h. -/
def Times [DecidableEq W] (ops : WeightOps W) (w1 w2 : SparseTupleWeight W) :
    SparseTupleWeight W :=
  SparseTupleWeightMap (SparseTupleWeightTimesMapper ops) w1 w2

/-- Semimodule divide operation of sparse-power-weight.h. -/
def Divide [DecidableEq W] (ops : WeightOps W) (w1 w2 : SparseTupleWeight W)
    (type : DivideType) : SparseTupleWeight W :=
  SparseTupleWeightMap (SparseTupleWeightDivideMapper ops type) w1 w2

/-- Semimodule dot product of sparse-power-weight.h: the coordinate-wise
product is folded with `Plus` starting from `W::Zero()` over the materialized
entries. -/
def DotProduct [DecidableEq W] (ops : WeightOps W)
    (w1 w2 : SparseTupleWeight W) : W :=
  let product := Times ops w1 w2
  product.pairs.foldl (fun acc p => ops.plus acc p.2) ops.zero

/-- ApproxEqual of sparse-power-weight.h: the merge under the approximate
mapper is compared for equality with `One()`.  As in the source, the mapper
is constructed with the fixed default kDelta, not with the caller-supplied
`delta`. -/
def ApproxEqual [DecidableEq W] (ops : WeightOps W)
    (w1 w2 : SparseTupleWeight W) (delta : ℚ) : Bool :=
  let result := SparseTupleWeightMap (SparseTupleWeightApproxMapper ops kDelta) w1 w2
  decide (result = One ops)

/-- Left scalar product of sparse-power-weight.h: wrap the scalar through the
single-value tuple constructor and invoke the ordinary tuple Times. -/
def TimesLeftScalar [DecidableEq W] (ops : WeightOps W) (k : W)
    (w2 : SparseTupleWeight W) : SparseTupleWeight W :=
  Times ops (ofScalar ops k) w2

/-- Right scalar product of sparse-power-weight.h. -/
def TimesRightScalar [DecidableEq W] (ops : WeightOps W)
    (w1 : SparseTupleWeight W) (k : W) : SparseTupleWeight W :=
  Times ops w1 (ofScalar ops k)

/-- Scalar divide of sparse-power-weight.h: divide the tuple by the
single-value embedding of the scalar. -/
def DivideScalar [DecidableEq W] (ops : WeightOps W)
    (w1 : SparseTupleWeight W) (k : W) (type : DivideType) :
    SparseTupleWeight W :=
  Divide ops w1 (ofScalar ops k) type

/-- Modelled from the spec: the property flag constant kLeftSemiring from
fst/weight.h (not under src/), a distinct single bit of the uint64 flag
word. -/
def kLeftSemiring : Nat := 1

/-- Modelled from the spec: the kRightSemiring flag bit (fst/weight.h, not
under src/). -/
def kRightSemiring : Nat := 2

/-- Modelled from the spec: the kCommutative flag bit (fst/weight.h, not
under src/). -/
def kCommutative : Nat := 4

/-- Modelled from the spec: the kIdempotent flag bit (fst/weight.h, not under
src/). -/
def kIdempotent : Nat := 8

/-- SparsePowerWeight::Properties() of sparse-power-weight.h:
`W::Properties() & (kLeftSemiring | kRightSemiring | kCommutative |
kIdempotent)`. -/
def Properties (ops : WeightOps W) : Nat :=
  ops.props &&& (kLeftSemiring ||| kRightSemiring ||| kCommutative ||| kIdempotent)

/-- SparsePowerWeight::Type() of sparse-power-weight.h: the base type name
plus the suffix made of a power marker, extended with the bit count
`8 * sizeof(K)` rendered in decimal (Int64ToStr) when `sizeof(K)` differs
from `sizeof(uint32) = 4`.  `sizeofK` is the byte size of the key type K. -/
def TypeName (ops : WeightOps W) (sizeofK : Nat) : String :=
  ops.typeName ++ "_^n" ++
    (if sizeofK ≠ 4 then "_" ++ toString (8 * sizeofK) else "")

/-- Reweighting direction, from the ReweightType enumeration. -/
inductive ReweightType where
  | toInitial
  | toFinal
deriving DecidableEq

/-- An automaton arc: source state, destination state, weight. -/
structure Arc (W : Type) where
  src : Nat
  dst : Nat
  weight : W
deriving DecidableEq

/-- An automaton, as consumed by the Reweight Transform: arcs with mutable
weights and per-state final weights; the transform never changes topology. -/
structure Automaton (W : Type) where
  arcs : List (Arc W)
  finals : List (Nat × W)
deriving DecidableEq

/-- The potential assigned to a state: entries beyond the supplied vector are
treated as `Zero` (absent or unspecified states). -/
def potAt (ops : WeightOps W) (pot : List W) (s : Nat) : W :=
  pot.getD s ops.zero

/-- Modelled from the spec: the arc formula of the Reweight Transform
(fst/reweight.h, not under src/).  ToFinal rewrites an arc weight to
`Times(Divide(One, potentials[src]), Times(weight, potentials[dst]))`;
ToInitial is the mirror transform with the roles of src/dst and left/right
division swapped. -/
def reweightArc (ops : WeightOps W) (pot : List W) (rt : ReweightType)
    (a : Arc W) : Arc W :=
  match rt with
  | .toFinal =>
    ⟨a.src, a.dst,
      ops.times (ops.divide ops.one (potAt ops pot a.src) .left)
        (ops.times a.weight (potAt ops pot a.dst))⟩
  | .toInitial =>
    ⟨a.src, a.dst,
      ops.times (ops.times (potAt ops pot a.src) a.weight)
        (ops.divide ops.one (potAt ops pot a.dst) .right)⟩

/-- Modelled from the spec: the final-weight formula of the Reweight
Transform (fst/reweight.h, not under src/).  ToFinal rewrites a final weight
to `Times(final_weight, potentials[state])`; ToInitial is the mirror. -/
def reweightFinal (ops : WeightOps W) (pot : List W) (rt : ReweightType)
    (s : Nat) (f : W) : W :=
  match rt with
  | .toFinal => ops.times f (potAt ops pot s)
  | .toInitial => ops.times (potAt ops pot s) f

/-- Modelled from the spec: the Reweight Transform (fst/reweight.h, not under
src/): every arc weight and every final weight is rewritten by the potential
formulas; the topology is untouched. -/
def Reweight (ops : WeightOps W) (a : Automaton W) (pot : List W)
    (rt : ReweightType) : Automaton W :=
  ⟨a.arcs.map (reweightArc ops pot rt),
    a.finals.map fun p => (p.1, reweightFinal ops pot rt p.1 p.2)⟩

/-- Outcome of one run of the fstreweight command: the process exit code,
the automaton handed to Write (if Write was reached), and whether the core
Reweight transform ran. -/
structure MainOutcome (F : Type) where
  exitCode : Nat
  written : Option F
  reweightRan : Bool
deriving DecidableEq

/-- Shallow embedding of main of src/bin/fstreweight.cc.  The collaborators
are parameters: `readFst` is the result of MutableFstClass::Read on the input
path, `readPotentials` the result of ReadPotentials for the loaded
automaton's weight type, `rw` the script-level Reweight, and `writeResult`
the Bool returned by the final Write call, which main discards.  The argc
check, the two early returns 1, the Reweight call guarded by both successful
loads, and the unconditional final return 0 follow the source line by
line. -/
def fstreweightMain (argc : Nat) (readFst : Option F)
    (readPotentials : F → Option (List V))
    (rw : F → List V → ReweightType → F) (toFinalFlag : Bool)
    (writeResult : Bool) : MainOutcome F :=
  if argc < 3 ∨ 4 < argc then ⟨1, none, false⟩
  else
    match readFst with
    | none => ⟨1, none, false⟩
    | some fst =>
      match readPotentials fst with
      | none => ⟨1, none, false⟩
      | some potential =>
        let result := rw fst potential
          (if toFinalFlag then .toFinal else .toInitial)
        let _ := writeResult
        ⟨0, some result, true⟩

def keyUnionMerge : List Int → List Int → List Int
  | [], l2 => l2
  | l1, [] => l1
  | k1 :: t1, k2 :: t2 =>
    if k1 = k2 then k1 :: keyUnionMerge t1 t2
    else if k1 < k2 then k1 :: keyUnionMerge t1 (k2 :: t2)
    else k2 :: keyUnionMerge (k1 :: t1) t2
termination_by l1 l2 => l1.length + l2.length

/-- The Plus merge result in the words of the spec: for every key present in
either operand (each key once, in merged key order), the pair
`(key, Plus(v1, v2))` with a missing side read as `W::Zero()`, and pairs
whose value equals `W::Zero()` omitted. -/
def plusSpecPairs [DecidableEq W] (ops : WeightOps W)
    (t1 t2 : SparseTupleWeight W) : List (Int × W) :=
  (keyUnionMerge (t1.pairs.map Prod.fst) (t2.pairs.map Prod.fst)).filterMap
    fun k =>
      if ops.plus (lookupL k ops.zero t1.pairs) (lookupL k ops.zero t2.pairs) =
          ops.zero then none
      else some (k,
        ops.plus (lookupL k ops.zero t1.pairs) (lookupL k ops.zero t2.pairs))

/-- The dot product in the words of the spec: the Plus-accumulation, starting
from `W::Zero()`, of `Times(p1[k], p2[k])` over every key present in either
operand, a missing side reading as `W::Zero()`. -/
def dotSpecVal [DecidableEq W] (ops : WeightOps W)
    (t1 t2 : SparseTupleWeight W) : W :=
  (keyUnionMerge (t1.pairs.map Prod.fst) (t2.pairs.map Prod.fst)).foldl
    (fun acc k => ops.plus acc
      (ops.times (lookupL k ops.zero t1.pairs) (lookupL k ops.zero t2.pairs)))
    ops.zero

/-- A concrete Weight Interface instance over the rationals (plus, times,
true division, absolute-difference approximate equality), used to exercise
the generic theorems on concrete inputs.  Its property word carries the two
semiring flags, commutativity, and one extra flag bit (bit 4) outside the
semiring set. -/
def ratOps : WeightOps ℚ where
  zero := 0
  one := 1
  plus := fun a b => a + b
  times := fun a b => a * b
  divide := fun a b _ => a / b
  approxEqual := fun a b d => decide (|a - b| ≤ d)
  props := 1 ||| 2 ||| 4 ||| 16
  typeName := "rational"

theorem keyUnionMerge_nil_left (l : List Int) : keyUnionMerge [] l = l := by
  rw [keyUnionMerge]

theorem keyUnionMerge_nil_right (l : List Int) : keyUnionMerge l [] = l := by
  cases l
  · rw [keyUnionMerge]
  · rw [keyUnionMerge]
    simp

theorem keyUnionMerge_cons_cons (k1 : Int) (t1 : List Int) (k2 : Int) (t2 : List Int) :
    keyUnionMerge (k1 :: t1) (k2 :: t2) =
      if k1 = k2 then k1 :: keyUnionMerge t1 t2
      else if k1 < k2 then k1 :: keyUnionMerge t1 (k2 :: t2)
      else k2 :: keyUnionMerge (k1 :: t1) t2 := by
  rw [keyUnionMerge]

theorem mem_keyUnionMerge (k : Int) (a b : List Int) :
    k ∈ keyUnionMerge a b ↔ k ∈ a ∨ k ∈ b := by
  induction a, b using keyUnionMerge.induct with
  | case1 l2 => simp [keyUnionMerge_nil_left]
  | case2 l1 h => simp [keyUnionMerge_nil_right]
  | case3 t1 k2 t2 ih =>
    rw [keyUnionMerge_cons_cons]
    simp only [if_pos rfl, if_true, List.mem_cons, ih]
    tauto
  | case4 k1 t1 k2 t2 hne hlt ih =>
    rw [keyUnionMerge_cons_cons]
    simp only [if_neg hne, if_pos hlt, List.mem_cons, ih]
    tauto
  | case5 k1 t1 k2 t2 hne hnlt ih =>
    rw [keyUnionMerge_cons_cons]
    simp only [if_neg hne, if_neg hnlt, List.mem_cons, ih]
    tauto

theorem keysSorted_cons {p : Int × W} {t : List (Int × W)} :
    KeysSorted (p :: t) ↔ (∀ q ∈ t, p.1 < q.1) ∧ KeysSorted t := by
  unfold KeysSorted
  exact List.pairwise_cons

theorem lookupL_nil (k : Int) (d : W) : lookupL k d [] = d := rfl

theorem lookupL_head (k : Int) (d v : W) (t : List (Int × W)) :
    lookupL k d ((k, v) :: t) = v := by
  simp [lookupL]

theorem lookupL_tail (k k1 : Int) (hne : k1 ≠ k) (d v : W) (t : List (Int × W)) :
    lookupL k d ((k1, v) :: t) = lookupL k d t := by
  simp [lookupL, hne]

theorem lookupL_of_forall_lt (k : Int) (d : W) (l : List (Int × W))
    (h : ∀ p ∈ l, k < p.1) : lookupL k d l = d := by
  induction l with
  | nil => rfl
  | cons p t ih =>
    have hk : p.1 ≠ k := by
      have := h p (List.mem_cons_self p t)
      omega
    obtain ⟨k1, v1⟩ := p
    rw [lookupL_tail k k1 hk]
    exact ih fun q hq => h q (List.mem_cons_of_mem _ hq)

theorem mapPairs_eq_filterMap [DecidableEq W] (M : Int → W → W → W) (d1 d2 rd : W) :
    ∀ (l1 l2 : List (Int × W)), KeysSorted l1 → KeysSorted l2 →
      mapPairs M d1 d2 rd l1 l2 =
        (keyUnionMerge (l1.map Prod.fst) (l2.map Prod.fst)).filterMap fun k =>
          if M k (lookupL k d1 l1) (lookupL k d2 l2) = rd then none
          else some (k, M k (lookupL k d1 l1) (lookupL k d2 l2))
  | [], [], _, _ => by simp [mapPairs, keyUnionMerge_nil_left]
  | [], (k2, v2) :: t2, h1, h2 => by
    obtain ⟨hk, h2t⟩ := keysSorted_cons.mp h2
    have ih := mapPairs_eq_filterMap M d1 d2 rd [] t2 h1 h2t
    have hcongr : ∀ k ∈ t2.map Prod.fst,
        (if M k (lookupL k d1 ([] : List (Int × W))) (lookupL k d2 ((k2, v2) :: t2)) = rd then none
         else some (k, M k (lookupL k d1 ([] : List (Int × W))) (lookupL k d2 ((k2, v2) :: t2)))) =
        (if M k (lookupL k d1 ([] : List (Int × W))) (lookupL k d2 t2) = rd then none
         else some (k, M k (lookupL k d1 ([] : List (Int × W))) (lookupL k d2 t2))) := by
      intro k hkmem
      obtain ⟨q, hq, rfl⟩ := List.mem_map.mp hkmem
      rw [lookupL_tail q.1 k2 (ne_of_lt (hk q hq)) d2 v2 t2]
    rw [mapPairs]
    simp only [List.map_cons, List.map_nil, keyUnionMerge_nil_left] at ih ⊢
    rw [List.filterMap_cons, List.filterMap_congr hcongr, ← ih, lookupL_head, lookupL_nil]
    by_cases hv : M k2 d1 v2 = rd
    · simp only [if_pos hv]
    · simp only [if_neg hv]
  | (k1, v1) :: t1, [], h1, h2 => by
    obtain ⟨hk, h1t⟩ := keysSorted_cons.mp h1
    have ih := mapPairs_eq_filterMap M d1 d2 rd t1 [] h1t h2
    have hcongr : ∀ k ∈ t1.map Prod.fst,
        (if M k (lookupL k d1 ((k1, v1) :: t1)) (lookupL k d2 ([] : List (Int × W))) = rd then none
         else some (k, M k (lookupL k d1 ((k1, v1) :: t1)) (lookupL k d2 ([] : List (Int × W))))) =
        (if M k (lookupL k d1 t1) (lookupL k d2 ([] : List (Int × W))) = rd then none
         else some (k, M k (lookupL k d1 t1) (lookupL k d2 ([] : List (Int × W))))) := by
      intro k hkmem
      obtain ⟨q, hq, rfl⟩ := List.mem_map.mp hkmem
      rw [lookupL_tail q.1 k1 (ne_of_lt (hk q hq)) d1 v1 t1]
    rw [mapPairs]
    simp only [List.map_cons, List.map_nil, keyUnionMerge_nil_right] at ih ⊢
    rw [List.filterMap_cons, List.filterMap_congr hcongr, ← ih, lookupL_head, lookupL_nil]
    by_cases hv : M k1 v1 d2 = rd
    · simp only [if_pos hv]
    · simp only [if_neg hv]
  | (k1, v1) :: t1, (k2, v2) :: t2, h1, h2 => by
    obtain ⟨hk1, h1t⟩ := keysSorted_cons.mp h1
    obtain ⟨hk2, h2t⟩ := keysSorted_cons.mp h2
    rw [mapPairs]
    by_cases heq : k1 = k2
    · subst heq
      have ih := mapPairs_eq_filterMap M d1 d2 rd t1 t2 h1t h2t
      have hcongr : ∀ k ∈ keyUnionMerge (t1.map Prod.fst) (t2.map Prod.fst),
          (if M k (lookupL k d1 ((k1, v1) :: t1)) (lookupL k d2 ((k1, v2) :: t2)) = rd then none
           else some (k, M k (lookupL k d1 ((k1, v1) :: t1)) (lookupL k d2 ((k1, v2) :: t2)))) =
          (if M k (lookupL k d1 t1) (lookupL k d2 t2) = rd then none
           else some (k, M k (lookupL k d1 t1) (lookupL k d2 t2))) := by
        intro k hkmem
        have hklt : k1 < k := by
          rcases (mem_keyUnionMerge k _ _).mp hkmem with h | h
          · obtain ⟨q, hq, rfl⟩ := List.mem_map.mp h
            exact hk1 q hq
          · obtain ⟨q, hq, rfl⟩ := List.mem_map.mp h
            exact hk2 q hq
        rw [lookupL_tail k k1 (ne_of_lt hklt) d1 v1 t1,
          lookupL_tail k k1 (ne_of_lt hklt) d2 v2 t2]
      simp only [List.map_cons, keyUnionMerge_cons_cons, if_pos rfl, if_true]
      rw [List.filterMap_cons, List.filterMap_congr hcongr, ← ih, lookupL_head, lookupL_head]
      by_cases hv : M k1 v1 v2 = rd
      · simp only [if_pos hv]
      · simp only [if_neg hv]
    · by_cases hlt : k1 < k2
      · have ih := mapPairs_eq_filterMap M d1 d2 rd t1 ((k2, v2) :: t2) h1t h2
        have hcongr : ∀ k ∈ keyUnionMerge (t1.map Prod.fst) (k2 :: t2.map Prod.fst),
            (if M k (lookupL k d1 ((k1, v1) :: t1)) (lookupL k d2 ((k2, v2) :: t2)) = rd then none
             else some (k, M k (lookupL k d1 ((k1, v1) :: t1)) (lookupL k d2 ((k2, v2) :: t2)))) =
            (if M k (lookupL k d1 t1) (lookupL k d2 ((k2, v2) :: t2)) = rd then none
             else some (k, M k (lookupL k d1 t1) (lookupL k d2 ((k2, v2) :: t2)))) := by
          intro k hkmem
          have hklt : k1 < k := by
            rcases (mem_keyUnionMerge k _ _).mp hkmem with h | h
            · obtain ⟨q, hq, rfl⟩ := List.mem_map.mp h
              exact hk1 q hq
            · rcases List.mem_cons.mp h with rfl | h
              · exact hlt
              · obtain ⟨q, hq, rfl⟩ := List.mem_map.mp h
                exact lt_trans hlt (hk2 q hq)
          rw [lookupL_tail k k1 (ne_of_lt hklt) d1 v1 t1]
        have hlook2 : lookupL k1 d2 ((k2, v2) :: t2) = d2 := by
          refine lookupL_of_forall_lt k1 d2 _ ?_
          intro q hq
          rcases List.mem_cons.mp hq with rfl | h
          · exact hlt
          · exact lt_trans hlt (hk2 q h)
        simp only [List.map_cons] at ih
        simp only [List.map_cons, keyUnionMerge_cons_cons, if_neg heq, if_pos hlt]
        rw [List.filterMap_cons, List.filterMap_congr hcongr, ← ih, lookupL_head, hlook2]
        by_cases hv : M k1 v1 d2 = rd
        · simp only [if_pos hv]
        · simp only [if_neg hv]
      · have ih := mapPairs_eq_filterMap M d1 d2 rd ((k1, v1) :: t1) t2 h1 h2t
        have hk2k1 : k2 < k1 := lt_of_le_of_ne (not_lt.mp hlt) (Ne.symm heq)
        have hcongr : ∀ k ∈ keyUnionMerge (k1 :: t1.map Prod.fst) (t2.map Prod.fst),
            (if M k (lookupL k d1 ((k1, v1) :: t1)) (lookupL k d2 ((k2, v2) :: t2)) = rd then none
             else some (k, M k (lookupL k d1 ((k1, v1) :: t1)) (lookupL k d2 ((k2, v2) :: t2)))) =
            (if M k (lookupL k d1 ((k1, v1) :: t1)) (lookupL k d2 t2) = rd then none
             else some (k, M k (lookupL k d1 ((k1, v1) :: t1)) (lookupL k d2 t2))) := by
          intro k hkmem
          have hklt : k2 < k := by
            rcases (mem_keyUnionMerge k _ _).mp hkmem with h | h
            · rcases List.mem_cons.mp h with rfl | h
              · exact hk2k1
              · obtain ⟨q, hq, rfl⟩ := List.mem_map.mp h
                exact lt_trans hk2k1 (hk1 q hq)
            · obtain ⟨q, hq, rfl⟩ := List.mem_map.mp h
              exact hk2 q hq
          rw [lookupL_tail k k2 (ne_of_lt hklt) d2 v2 t2]
        have hlook1 : lookupL k2 d1 ((k1, v1) :: t1) = d1 := by
          refine lookupL_of_forall_lt k2 d1 _ ?_
          intro q hq
          rcases List.mem_cons.mp hq with rfl | h
          · exact hk2k1
          · exact lt_trans hk2k1 (hk1 q h)
        simp only [List.map_cons] at ih
        simp only [List.map_cons, keyUnionMerge_cons_cons, if_neg heq, if_neg hlt]
        rw [List.filterMap_cons, List.filterMap_congr hcongr, ← ih, lookupL_head, hlook1]
        by_cases hv : M k2 d1 v2 = rd
        · simp only [if_pos hv]
        · simp only [if_neg hv]
termination_by l1 l2 => l1.length + l2.length

theorem keyUnionMerge_sorted (a b : List Int)
    (ha : a.Pairwise (· < ·)) (hb : b.Pairwise (· < ·)) :
    (keyUnionMerge a b).Pairwise (· < ·) := by
  induction a, b using keyUnionMerge.induct with
  | case1 l2 => rw [keyUnionMerge_nil_left]; exact hb
  | case2 l1 h => rw [keyUnionMerge_nil_right]; exact ha
  | case3 t1 k2 t2 ih =>
    rw [keyUnionMerge_cons_cons, if_pos rfl]
    rw [List.pairwise_cons] at ha hb
    rw [List.pairwise_cons]
    refine ⟨fun x hx => ?_, ih ha.2 hb.2⟩
    rcases (mem_keyUnionMerge x t1 t2).mp hx with h | h
    · exact ha.1 x h
    · exact hb.1 x h
  | case4 k1 t1 k2 t2 hne hlt ih =>
    rw [keyUnionMerge_cons_cons, if_neg hne, if_pos hlt]
    rw [List.pairwise_cons] at ha
    rw [List.pairwise_cons]
    refine ⟨fun x hx => ?_, ih ha.2 hb⟩
    rcases (mem_keyUnionMerge x t1 (k2 :: t2)).mp hx with h | h
    · exact ha.1 x h
    · rcases List.mem_cons.mp h with rfl | h
      · exact hlt
      · exact lt_trans hlt (List.rel_of_pairwise_cons hb h)
  | case5 k1 t1 k2 t2 hne hnlt ih =>
    rw [keyUnionMerge_cons_cons, if_neg hne, if_neg hnlt]
    rw [List.pairwise_cons] at hb
    rw [List.pairwise_cons]
    have hk2k1 : k2 < k1 := lt_of_le_of_ne (not_lt.mp hnlt) (Ne.symm hne)
    have ha1 : t1.Pairwise (· < ·) := (List.pairwise_cons.mp ha).2
    refine ⟨fun x hx => ?_, ih (List.pairwise_cons.mpr ⟨fun y hy => List.rel_of_pairwise_cons ha hy, ha1⟩) hb.2⟩
    rcases (mem_keyUnionMerge x (k1 :: t1) t2).mp hx with h | h
    · rcases List.mem_cons.mp h with rfl | h
      · exact hk2k1
      · exact lt_trans hk2k1 (List.rel_of_pairwise_cons ha h)
    · exact hb.1 x h

theorem filterMap_if_keys_sublist [DecidableEq W] (f : Int → W) (rd : W)
    (l : List Int) :
    ((l.filterMap fun k => if f k = rd then none else some (k, f k)).map
      Prod.fst).Sublist l := by
  induction l with
  | nil => simp
  | cons k t ih =>
    rw [List.filterMap_cons]
    by_cases h : f k = rd
    · rw [if_pos h]
      exact ih.cons k
    · rw [if_neg h, List.map_cons]
      exact ih.cons₂ k

theorem foldl_plus_filterMap_if [DecidableEq W] (ops : WeightOps W)
    (f : Int → W) (hplus0 : ∀ x, ops.plus x ops.zero = x) (l : List Int) :
    ∀ acc : W,
      ((l.filterMap fun k => if f k = ops.zero then none else some (k, f k)).foldl
        (fun a p => ops.plus a p.2) acc) =
      l.foldl (fun a k => ops.plus a (f k)) acc := by
  induction l with
  | nil => intro acc; rfl
  | cons k t ih =>
    intro acc
    rw [List.filterMap_cons, List.foldl_cons]
    by_cases h : f k = ops.zero
    · rw [if_pos h, h, hplus0, ih acc]
    · rw [if_neg h, List.foldl_cons, ih]

theorem mapPairs_nil_left [DecidableEq W] (M : Int → W → W → W) (d1 d2 rd : W)
    (l : List (Int × W)) :
    mapPairs M d1 d2 rd [] l =
      l.filterMap fun p =>
        if M p.1 d1 p.2 = rd then none else some (p.1, M p.1 d1 p.2) := by
  induction l with
  | nil => rw [mapPairs]; rfl
  | cons p t ih =>
    obtain ⟨k2, v2⟩ := p
    rw [mapPairs, List.filterMap_cons]
    by_cases h : M k2 d1 v2 = rd
    · simp only [if_pos h, ih]
    · simp only [if_neg h, ih]

theorem mapPairs_nil_right [DecidableEq W] (M : Int → W → W → W) (d1 d2 rd : W)
    (l : List (Int × W)) :
    mapPairs M d1 d2 rd l [] =
      l.filterMap fun p =>
        if M p.1 p.2 d2 = rd then none else some (p.1, M p.1 p.2 d2) := by
  induction l with
  | nil => rw [mapPairs]; rfl
  | cons p t ih =>
    obtain ⟨k1, v1⟩ := p
    rw [mapPairs, List.filterMap_cons]
    by_cases h : M k1 v1 d2 = rd
    · simp only [if_pos h, ih]
    · simp only [if_neg h, ih]

/-- C1, refuted (code bug): the claim says ApproxEqual(w1, w2, delta) is true
iff the merge under the mapper built from the caller-supplied delta equals
One().  At w1 = (1 maps to 1), w2 = (1 maps to 2) and delta = 2 over the
rational weight, the claimed formula yields One() (so the claim demands
true), but the code returns false: line 176 of sparse-power-weight.h
constructs the mapper with the fixed default kDelta instead of delta. -/
theorem approxEqual_ignores_caller_delta :
    ApproxEqual ratOps ⟨0, [(1, 1)]⟩ ⟨0, [(1, 2)]⟩ 2 = false ∧
    SparseTupleWeightMap (SparseTupleWeightApproxMapper ratOps 2)
      ⟨0, [(1, 1)]⟩ ⟨0, [(1, 2)]⟩ = One ratOps := by
  constructor
  · norm_num [ApproxEqual, SparseTupleWeightMap, mapPairs.eq_def,
      SparseTupleWeightApproxMapper, ratOps, One, kDelta, kNoKey]
  · norm_num [SparseTupleWeightMap, mapPairs.eq_def,
      SparseTupleWeightApproxMapper, ratOps, One, kDelta, kNoKey]

/-- C2: DotProduct(p1, p2) equals the Plus-accumulation, starting from
W.Zero, of Times(p1[k], p2[k]) over every key present in either operand,
absent keys contributing W.Zero on their side; proved for tuples satisfying
the spec data-model invariant, over any weight with a right additive
identity and Times(Zero, Zero) = Zero. -/
theorem dotProduct_spec [DecidableEq W] (ops : WeightOps W)
    (t1 t2 : SparseTupleWeight W) (h1 : Wf ops t1) (h2 : Wf ops t2)
    (hplus0 : ∀ x, ops.plus x ops.zero = x)
    (htz : ops.times ops.zero ops.zero = ops.zero) :
    DotProduct ops t1 t2 = dotSpecVal ops t1 t2 := by
  obtain ⟨hs1, hd1⟩ := h1
  obtain ⟨hs2, hd2⟩ := h2
  have key := mapPairs_eq_filterMap (SparseTupleWeightTimesMapper ops) t1.dflt
    t2.dflt (SparseTupleWeightTimesMapper ops kNoKey t1.dflt t2.dflt)
    t1.pairs t2.pairs hs1 hs2
  show ((Times ops t1 t2).pairs.foldl (fun acc p => ops.plus acc p.2) ops.zero) = _
  have hpairs : (Times ops t1 t2).pairs =
      (keyUnionMerge (t1.pairs.map Prod.fst) (t2.pairs.map Prod.fst)).filterMap
        fun k =>
          if ops.times (lookupL k ops.zero t1.pairs) (lookupL k ops.zero t2.pairs) =
              ops.zero then none
          else some (k,
            ops.times (lookupL k ops.zero t1.pairs) (lookupL k ops.zero t2.pairs)) := by
    show mapPairs _ _ _ _ t1.pairs t2.pairs = _
    rw [key]
    unfold SparseTupleWeightTimesMapper
    rw [hd1, hd2, htz]
  rw [hpairs]
  exact foldl_plus_filterMap_if ops _ hplus0 _ ops.zero

theorem dotProduct_spec_witness :
    DotProduct ratOps ⟨0, [(1, 2), (3, 5)]⟩ ⟨0, [(3, 7)]⟩ =
      dotSpecVal ratOps ⟨0, [(1, 2), (3, 5)]⟩ ⟨0, [(3, 7)]⟩ :=
  dotProduct_spec ratOps ⟨0, [(1, 2), (3, 5)]⟩ ⟨0, [(3, 7)]⟩
    ⟨by decide, rfl⟩ ⟨by decide, rfl⟩ (fun x => add_zero x) (mul_zero 0)

/-- C3: Plus(t1, t2), computed by the generic merge with the Plus mapper, is
the tuple holding, for every key present in either operand, the pair
(key, Plus(v1, v2)) with a missing side read as W.Zero, each key visited
exactly once (the key list is duplicate-free) and pairs whose value equals
W.Zero omitted. -/
theorem plus_merge_spec [DecidableEq W] (ops : WeightOps W)
    (t1 t2 : SparseTupleWeight W) (h1 : Wf ops t1) (h2 : Wf ops t2)
    (hzz : ops.plus ops.zero ops.zero = ops.zero) :
    (Plus ops t1 t2).pairs = plusSpecPairs ops t1 t2 ∧
    ((Plus ops t1 t2).pairs.map Prod.fst).Nodup := by
  obtain ⟨hs1, hd1⟩ := h1
  obtain ⟨hs2, hd2⟩ := h2
  have key := mapPairs_eq_filterMap (SparseTupleWeightPlusMapper ops) t1.dflt
    t2.dflt (SparseTupleWeightPlusMapper ops kNoKey t1.dflt t2.dflt)
    t1.pairs t2.pairs hs1 hs2
  have hpairs : (Plus ops t1 t2).pairs = plusSpecPairs ops t1 t2 := by
    show mapPairs _ _ _ _ t1.pairs t2.pairs = _
    rw [key]
    unfold plusSpecPairs SparseTupleWeightPlusMapper
    rw [hd1, hd2, hzz]
  refine ⟨hpairs, ?_⟩
  rw [hpairs]
  unfold plusSpecPairs
  have hsub := filterMap_if_keys_sublist
    (fun k => ops.plus (lookupL k ops.zero t1.pairs) (lookupL k ops.zero t2.pairs))
    ops.zero
    (keyUnionMerge (t1.pairs.map Prod.fst) (t2.pairs.map Prod.fst))
  have hmapsorted1 : (t1.pairs.map Prod.fst).Pairwise (· < ·) :=
    List.pairwise_map.mpr hs1
  have hmapsorted2 : (t2.pairs.map Prod.fst).Pairwise (· < ·) :=
    List.pairwise_map.mpr hs2
  have hnodup : (keyUnionMerge (t1.pairs.map Prod.fst)
      (t2.pairs.map Prod.fst)).Nodup :=
    (keyUnionMerge_sorted _ _ hmapsorted1 hmapsorted2).imp ne_of_lt
  exact hnodup.sublist hsub

theorem plus_merge_spec_witness :
    (Plus ratOps ⟨0, [(1, 2), (2, 5)]⟩ ⟨0, [(2, -5), (3, 7)]⟩).pairs =
      plusSpecPairs ratOps ⟨0, [(1, 2), (2, 5)]⟩ ⟨0, [(2, -5), (3, 7)]⟩ ∧
    ((Plus ratOps ⟨0, [(1, 2), (2, 5)]⟩ ⟨0, [(2, -5), (3, 7)]⟩).pairs.map
      Prod.fst).Nodup :=
  plus_merge_spec ratOps ⟨0, [(1, 2), (2, 5)]⟩ ⟨0, [(2, -5), (3, 7)]⟩
    ⟨by decide, rfl⟩ ⟨by decide, rfl⟩ (add_zero 0)

/-- C4: the scalar products Times(k, w) and Times(w, k) broadcast the scalar
across every dimension present in w — same key set minus coordinates whose
product is W.Zero, each value multiplied by k on the corresponding side —
and are implemented by wrapping k through the single-value tuple constructor
and invoking the ordinary tuple Times merge. -/
theorem timesScalar_spec [DecidableEq W] (ops : WeightOps W) (k : W)
    (w : SparseTupleWeight W) (hw : Wf ops w)
    (hkz : ops.times k ops.zero = ops.zero)
    (hzk : ops.times ops.zero k = ops.zero) :
    TimesLeftScalar ops k w = Times ops (ofScalar ops k) w ∧
    (TimesLeftScalar ops k w).pairs =
      w.pairs.filterMap (fun p =>
        if ops.times k p.2 = ops.zero then none
        else some (p.1, ops.times k p.2)) ∧
    TimesRightScalar ops w k = Times ops w (ofScalar ops k) ∧
    (TimesRightScalar ops w k).pairs =
      w.pairs.filterMap (fun p =>
        if ops.times p.2 k = ops.zero then none
        else some (p.1, ops.times p.2 k)) := by
  obtain ⟨hs, hd⟩ := hw
  refine ⟨rfl, ?_, rfl, ?_⟩
  · show mapPairs _ _ _ _ ([] : List (Int × W)) w.pairs = _
    unfold ofScalar SparseTupleWeightTimesMapper
    rw [hd, hkz, mapPairs_nil_left]
  · show mapPairs _ _ _ _ w.pairs ([] : List (Int × W)) = _
    unfold ofScalar SparseTupleWeightTimesMapper
    rw [hd, hzk, mapPairs_nil_right]


theorem timesScalar_spec_witness :
    (TimesLeftScalar ratOps 3 ⟨0, [(1, 2), (2, 5)]⟩ =
      Times ratOps (ofScalar ratOps 3) ⟨0, [(1, 2), (2, 5)]⟩) ∧
    (TimesLeftScalar ratOps 3 ⟨0, [(1, 2), (2, 5)]⟩).pairs =
      ([(1, 2), (2, 5)] : List (Int × ℚ)).filterMap (fun p =>
        if ratOps.times 3 p.2 = ratOps.zero then none
        else some (p.1, ratOps.times 3 p.2)) ∧
    (TimesRightScalar ratOps ⟨0, [(1, 2), (2, 5)]⟩ 3 =
      Times ratOps ⟨0, [(1, 2), (2, 5)]⟩ (ofScalar ratOps 3)) ∧
    (TimesRightScalar ratOps ⟨0, [(1, 2), (2, 5)]⟩ 3).pairs =
      ([(1, 2), (2, 5)] : List (Int × ℚ)).filterMap (fun p =>
        if ratOps.times p.2 3 = ratOps.zero then none
        else some (p.1, ratOps.times p.2 3)) :=
  timesScalar_spec ratOps 3 ⟨0, [(1, 2), (2, 5)]⟩ ⟨by decide, rfl⟩
    (mul_zero 3) (zero_mul 3)

/-- C5: Reweight with a potential vector assigning One to every state of the
automaton leaves every arc weight and every final weight exactly unchanged,
in either direction, over any weight with two-sided multiplicative identity
and One/One division equal to One. -/
theorem reweight_allOne_identity (ops : WeightOps W) (a : Automaton W)
    (pot : List W) (rt : ReweightType)
    (harc : ∀ arc ∈ a.arcs,
      potAt ops pot arc.src = ops.one ∧ potAt ops pot arc.dst = ops.one)
    (hfin : ∀ p ∈ a.finals, potAt ops pot p.1 = ops.one)
    (hto : ∀ x, ops.times ops.one x = x) (hot : ∀ x, ops.times x ops.one = x)
    (hdiv : ∀ t, ops.divide ops.one ops.one t = ops.one) :
    Reweight ops a pot rt = a := by
  obtain ⟨arcs, finals⟩ := a
  unfold Reweight
  congr 1
  · have hmap : ∀ arc ∈ arcs, reweightArc ops pot rt arc = arc := by
      intro arc harcmem
      obtain ⟨hsrc, hdst⟩ := harc arc harcmem
      cases rt with
      | toFinal =>
        simp only [reweightArc, hsrc, hdst, hdiv, hto, hot]
      | toInitial =>
        simp only [reweightArc, hsrc, hdst, hdiv, hto, hot]
    calc arcs.map (reweightArc ops pot rt) = arcs.map id := List.map_congr_left hmap
      _ = arcs := List.map_id arcs
  · have hmap : ∀ p ∈ finals, (p.1, reweightFinal ops pot rt p.1 p.2) = p := by
      intro p hp
      have hs := hfin p hp
      cases rt with
      | toFinal => simp only [reweightFinal, hs, hot]
      | toInitial => simp only [reweightFinal, hs, hto]
    calc finals.map (fun p => (p.1, reweightFinal ops pot rt p.1 p.2))
        = finals.map id := List.map_congr_left hmap
      _ = finals := List.map_id finals

theorem reweight_allOne_identity_witness :
    Reweight ratOps ⟨[⟨0, 1, 5⟩], [(1, 3)]⟩ [1, 1] ReweightType.toFinal =
      ⟨[⟨0, 1, 5⟩], [(1, 3)]⟩ :=
  reweight_allOne_identity ratOps ⟨[⟨0, 1, 5⟩], [(1, 3)]⟩ [1, 1]
    ReweightType.toFinal (by decide) (by decide)
    (fun x => one_mul x) (fun x => mul_one x) (fun _ => div_one 1)

/-- C6: SparsePowerWeight Properties() equals the base W Properties()
restricted to exactly the left-semiring, right-semiring, commutative and
idempotent flags: each of the four flags propagates from W and every other
bit of the property word is dropped. -/
theorem properties_semiring_flags (ops : WeightOps W) :
    Properties ops &&& kLeftSemiring = ops.props &&& kLeftSemiring ∧
    Properties ops &&& kRightSemiring = ops.props &&& kRightSemiring ∧
    Properties ops &&& kCommutative = ops.props &&& kCommutative ∧
    Properties ops &&& kIdempotent = ops.props &&& kIdempotent ∧
    ∀ i : Nat, 4 ≤ i → (Properties ops).testBit i = false := by
  unfold Properties kLeftSemiring kRightSemiring kCommutative kIdempotent
  refine ⟨?_, ?_, ?_, ?_, ?_⟩
  · rw [Nat.land_assoc, (by decide : ((1 ||| 2 ||| 4 ||| 8 : Nat) &&& 1) = 1)]
  · rw [Nat.land_assoc, (by decide : ((1 ||| 2 ||| 4 ||| 8 : Nat) &&& 2) = 2)]
  · rw [Nat.land_assoc, (by decide : ((1 ||| 2 ||| 4 ||| 8 : Nat) &&& 4) = 4)]
  · rw [Nat.land_assoc, (by decide : ((1 ||| 2 ||| 4 ||| 8 : Nat) &&& 8) = 8)]
  · intro i hi
    rw [Nat.testBit_land]
    have h15 : (1 ||| 2 ||| 4 ||| 8 : Nat) = 15 := by decide
    rw [h15]
    have hb : Nat.testBit 15 i = false := by
      apply Nat.testBit_lt_two_pow
      calc (15 : Nat) < 2 ^ 4 := by norm_num
        _ ≤ 2 ^ i := Nat.pow_le_pow_right (by norm_num) hi
    simp [hb]

theorem properties_semiring_flags_witness :
    (Properties ratOps).testBit 4 = false ∧
    Properties ratOps &&& kCommutative = ratOps.props &&& kCommutative :=
  ⟨(properties_semiring_flags ratOps).2.2.2.2 4 (le_refl 4),
    (properties_semiring_flags ratOps).2.2.1⟩

/-- C7: the reweight command exits non-zero and writes no output artifact
whenever loading the input automaton or parsing the potentials file fails,
and the core Reweight transform runs (and the output is written) only after
both loads succeed. -/
theorem fstreweightMain_aborts_on_load_failure {F V : Type} (argc : Nat)
    (readFst : Option F) (readPotentials : F → Option (List V))
    (rwt : F → List V → ReweightType → F) (toFinalFlag writeResult : Bool) :
    ((readFst = none ∨ ∃ f, readFst = some f ∧ readPotentials f = none) →
      (fstreweightMain argc readFst readPotentials rwt toFinalFlag writeResult).exitCode ≠ 0 ∧
      (fstreweightMain argc readFst readPotentials rwt toFinalFlag writeResult).written = none ∧
      (fstreweightMain argc readFst readPotentials rwt toFinalFlag writeResult).reweightRan = false) ∧
    (((fstreweightMain argc readFst readPotentials rwt toFinalFlag writeResult).reweightRan = true ∨
      (fstreweightMain argc readFst readPotentials rwt toFinalFlag writeResult).written ≠ none) →
      ∃ f pot, readFst = some f ∧ readPotentials f = some pot) := by
  constructor
  · rintro (hnone | ⟨f, hf, hp⟩)
    · rw [hnone]
      unfold fstreweightMain
      split <;> simp
    · rw [hf]
      unfold fstreweightMain
      split
      · simp
      · simp [hp]
  · intro h
    unfold fstreweightMain at h
    split at h
    · simp at h
    · cases hf : readFst with
      | none =>
        rw [hf] at h
        simp at h
      | some f =>
        rw [hf] at h
        cases hp : readPotentials f with
        | none =>
          simp [hp] at h
        | some pot =>
          exact ⟨f, pot, rfl, hp⟩

theorem fstreweightMain_aborts_witness :
    (fstreweightMain 3 (none : Option Nat) (fun _ => some ([] : List ℚ))
      (fun f _ _ => f) true true).exitCode ≠ 0 ∧
    (fstreweightMain 3 (none : Option Nat) (fun _ => some ([] : List ℚ))
      (fun f _ _ => f) true true).written = none ∧
    (fstreweightMain 3 (none : Option Nat) (fun _ => some ([] : List ℚ))
      (fun f _ _ => f) true true).reweightRan = false :=
  (fstreweightMain_aborts_on_load_failure 3 none (fun _ => some [])
    (fun f _ _ => f) true true).1 (Or.inl rfl)

/-- C8: the type name of SparsePowerWeight is the base type name plus the
power suffix, extended with the bit width of K when sizeof(K) is not 4
bytes, so over the same base weight two power weights whose key types have
different byte sizes (among the C++ integer sizes 1, 2, 4, 8) have distinct
type names. -/
theorem typeName_structure_and_distinct (ops : WeightOps W) (s1 s2 : Nat)
    (h1 : s1 ∈ ([1, 2, 4, 8] : List Nat)) (h2 : s2 ∈ ([1, 2, 4, 8] : List Nat))
    (hne : s1 ≠ s2) :
    TypeName ops 4 = ops.typeName ++ "_^n" ∧
    (s1 ≠ 4 → TypeName ops s1 = ops.typeName ++ "_^n" ++ ("_" ++ toString (8 * s1))) ∧
    TypeName ops s1 ≠ TypeName ops s2 := by
  refine ⟨by simp [TypeName], fun hs => by simp [TypeName, hs], ?_⟩
  fin_cases h1 <;> fin_cases h2 <;>
    first
    | exact absurd rfl hne
    | · intro h
        rw [TypeName, TypeName] at h
        norm_num at h
        have hd := congrArg String.data h
        simp only [String.data_append, List.append_assoc] at hd
        exact absurd (List.append_cancel_left hd) (by decide)

theorem typeName_structure_and_distinct_witness :
    TypeName ratOps 4 ≠ TypeName ratOps 8 :=
  (typeName_structure_and_distinct ratOps 4 8 (by decide) (by decide)
    (by decide)).2.2

/-- C9: the scalar Divide(w, k, type) equals the tuple Divide of w by the
singleton embedding of k: every coordinate present in w is divided by k with
the given divide type, results equal to W.Zero omitted. -/
theorem divideScalar_spec [DecidableEq W] (ops : WeightOps W)
    (w : SparseTupleWeight W) (k : W) (t : DivideType) (hw : Wf ops w)
    (hdz : ops.divide ops.zero k t = ops.zero) :
    DivideScalar ops w k t = Divide ops w (ofScalar ops k) t ∧
    (DivideScalar ops w k t).pairs =
      w.pairs.filterMap (fun p =>
        if ops.divide p.2 k t = ops.zero then none
        else some (p.1, ops.divide p.2 k t)) := by
  obtain ⟨hs, hd⟩ := hw
  refine ⟨rfl, ?_⟩
  show mapPairs _ _ _ _ w.pairs ([] : List (Int × W)) = _
  unfold ofScalar SparseTupleWeightDivideMapper
  rw [hd, hdz, mapPairs_nil_right]

theorem divideScalar_spec_witness :
    (DivideScalar ratOps ⟨0, [(1, 6)]⟩ 3 DivideType.any =
      Divide ratOps ⟨0, [(1, 6)]⟩ (ofScalar ratOps 3) DivideType.any) ∧
    (DivideScalar ratOps ⟨0, [(1, 6)]⟩ 3 DivideType.any).pairs =
      ([(1, 6)] : List (Int × ℚ)).filterMap (fun p =>
        if ratOps.divide p.2 3 DivideType.any = ratOps.zero then none
        else some (p.1, ratOps.divide p.2 3 DivideType.any)) :=
  divideScalar_spec ratOps ⟨0, [(1, 6)]⟩ 3 DivideType.any ⟨by decide, rfl⟩
    (zero_div 3)

/-- C10: after both loads succeed, the reweight command returns exit status
0 regardless of the Bool returned by the final Write call — the write result
is discarded. -/
theorem fstreweightMain_exit_ignores_write {F V : Type} (argc : Nat) (f : F)
    (readPotentials : F → Option (List V)) (rwt : F → List V → ReweightType → F)
    (toFinalFlag : Bool) (pot : List V)
    (hargc : 3 ≤ argc ∧ argc ≤ 4) (hpot : readPotentials f = some pot) :
    ∀ w1 w2 : Bool,
      (fstreweightMain argc (some f) readPotentials rwt toFinalFlag w1).exitCode = 0 ∧
      fstreweightMain argc (some f) readPotentials rwt toFinalFlag w1 =
        fstreweightMain argc (some f) readPotentials rwt toFinalFlag w2 := by
  intro w1 w2
  unfold fstreweightMain
  rw [if_neg (by omega)]
  simp [hpot]

theorem fstreweightMain_exit_ignores_write_witness :
    (fstreweightMain 3 (some 0) (fun (_ : Nat) => some ([] : List ℚ))
      (fun f _ _ => f) true true).exitCode = 0 ∧
    fstreweightMain 3 (some 0) (fun (_ : Nat) => some ([] : List ℚ))
      (fun f _ _ => f) true true =
      fstreweightMain 3 (some 0) (fun (_ : Nat) => some ([] : List ℚ))
        (fun f _ _ => f) true false :=
  fstreweightMain_exit_ignores_write 3 0 (fun _ => some [])
    (fun f _ _ => f) true [] ⟨by norm_num, by norm_num⟩ rfl true false

end OpenFst
